import Mathlib

/-!
Verification development for the renpak build pipeline
(src/python/renpak/rpa.py, encode.py, build.py).

The Python code is shallowly embedded: bytes are `List Nat`, Python dicts
are insertion-ordered association lists whose update replaces the value of
the first (unique) matching key in place, machine integers are `Nat`
(Python ints are unbounded), and external library calls (the PIL/AV1
encoders) are abstracted as function parameters.  The zlib+pickle
serialization of the archive index is not modelled byte for byte: the
archive record keeps the index structurally, and every statement about
reading file bodies is quantified over an arbitrary trailing byte blob
standing for the serialized index, so no statement depends on the blob's
content.
-/

namespace Renpak

/-! ## Container codec: src/python/renpak/rpa.py -/

/-- Entry of an RPA-3.0 index (`RpaEntry` in rpa.py). The source field
`prefix` is named `pfx` here. -/
structure RpaEntry where
  name : String
  offset : Nat
  length : Nat
  pfx : List Nat
deriving DecidableEq, Repr

/-- Model of `RpaReader.read_file`: seek to `entry.offset`, read at most
`entry.length` bytes (Python `file.read` returns the available bytes and
never raises at EOF), and prepend the prefix when it is non-empty. -/
def readFileBytes (file : List Nat) (e : RpaEntry) : List Nat :=
  let data := (file.drop e.offset).take e.length
  if e.pfx.isEmpty then data else e.pfx ++ data

theorem readFileBytes_eq (file : List Nat) (e : RpaEntry) :
    readFileBytes file e = e.pfx ++ (file.drop e.offset).take e.length := by
  unfold readFileBytes
  cases h : e.pfx with
  | nil => simp
  | cons a l => simp

/-- State of `RpaWriter`: the bytes written so far (40 reserved header
bytes, then the appended blobs) and the `_entries` dict. -/
structure RpaWriterS where
  file : List Nat
  key : Nat
  entries : List (String × Nat × Nat)
deriving Repr

/-- `RpaWriter.__init__` with an explicit key: reserve 40 zero bytes. -/
def initWriter (key : Nat) : RpaWriterS :=
  ⟨List.replicate 40 0, key, []⟩

/-- Python dict assignment `d[n] = v`: replace the value of the first
(unique) occurrence of the key in place, else append the new key. -/
def dictInsertNN : List (String × Nat × Nat) → String → Nat × Nat →
    List (String × Nat × Nat)
  | [], n, v => [(n, v.1, v.2)]
  | e :: es, n, v =>
      if e.1 = n then (n, v.1, v.2) :: es else e :: dictInsertNN es n v

/-- Model of `RpaWriter.add_file`: record the current file position and the
data length, then append the data. -/
def add_file (w : RpaWriterS) (name : String) (data : List Nat) : RpaWriterS :=
  ⟨w.file ++ data, w.key, dictInsertNN w.entries name (w.file.length, data.length)⟩

/-- A finished archive. `payload` holds the file bytes below `indexOffset`;
the zlib-compressed pickled index that the real file stores from
`indexOffset` to EOF is kept structurally in `index` (name, offset xor key,
length xor key, prefix bytes). -/
structure RpaArchive where
  payload : List Nat
  indexOffset : Nat
  key : Nat
  index : List (String × Nat × Nat × List Nat)
deriving Repr

/-- Model of `RpaWriter.finish`: capture the index offset (current file
length), emit each recorded entry as `(offset ^ key, length ^ key, b"")`. -/
def finish (w : RpaWriterS) : RpaArchive :=
  ⟨w.file, w.file.length, w.key,
    w.entries.map (fun e => (e.1, e.2.1 ^^^ w.key, e.2.2 ^^^ w.key, []))⟩

/-- Sequentially add a list of (name, data) pairs to a writer. -/
def writeAllFrom (w : RpaWriterS) : List (String × List Nat) → RpaWriterS
  | [] => w
  | p :: rest => writeAllFrom (add_file w p.1 p.2) rest

/-- Write every pair through a fresh writer with the given key. -/
def writeAll (key : Nat) (pairs : List (String × List Nat)) : RpaWriterS :=
  writeAllFrom (initWriter key) pairs

/-- Model of `RpaReader.read_index`: each serialized tuple is decoded by
XOR-ing offset and length with the archive key (writer-produced archives
store single-tuple lists with a bytes prefix, the shape emitted by
`finish`). -/
def readIndexM (a : RpaArchive) : List (String × RpaEntry) :=
  a.index.map (fun t => (t.1, ⟨t.1, t.2.1 ^^^ a.key, t.2.2.1 ^^^ a.key, t.2.2.2⟩))

/-- Dictionary lookup in the index returned by `read_index`. -/
def lookupIndex (a : RpaArchive) (n : String) : Option RpaEntry :=
  ((readIndexM a).find? (fun p => p.1 == n)).map Prod.snd

/-- Lookup in the writer's `_entries` dict. -/
def lookupNN (es : List (String × Nat × Nat)) (n : String) : Option (Nat × Nat) :=
  (es.find? (fun e => e.1 == n)).map Prod.snd

/-- Data of the last `add_file` call with a given name, if any. -/
def lastData : List (String × List Nat) → String → Option (List Nat)
  | [], _ => none
  | p :: rest, n =>
      match lastData rest n with
      | some d => some d
      | none => if p.1 = n then some p.2 else none

/-- Total length of the data blobs of a pair list. -/
def totalLen (pairs : List (String × List Nat)) : Nat :=
  (pairs.map (fun p => p.2.length)).sum

/-- An (offset, length) record correctly describes the slice `d` of `file`. -/
def entryOk (file : List Nat) (o l : Nat) (d : List Nat) : Prop :=
  o + l ≤ file.length ∧ l = d.length ∧ (file.drop o).take l = d

theorem slice_append {xs ys : List Nat} {o l : Nat} (h : o + l ≤ xs.length) :
    ((xs ++ ys).drop o).take l = (xs.drop o).take l := by
  have h1 : o ≤ xs.length := le_trans (Nat.le_add_right o l) h
  rw [List.drop_append_of_le_length h1]
  exact List.take_append_of_le_length (by simp [List.length_drop]; omega)

theorem entryOk_append {xs ys : List Nat} {o l : Nat} {d : List Nat}
    (h : entryOk xs o l d) : entryOk (xs ++ ys) o l d := by
  obtain ⟨h1, h2, h3⟩ := h
  refine ⟨by simp; omega, h2, ?_⟩
  rw [slice_append h1, h3]

theorem lookupNN_insert_self (es : List (String × Nat × Nat)) (n : String)
    (v : Nat × Nat) : lookupNN (dictInsertNN es n v) n = some v := by
  induction es with
  | nil => simp [dictInsertNN, lookupNN]
  | cons e es ih =>
      by_cases h : e.1 = n
      · simp [dictInsertNN, h, lookupNN]
      · simpa [dictInsertNN, h, lookupNN, List.find?] using ih

theorem lookupNN_insert_ne (es : List (String × Nat × Nat)) {m n : String}
    (v : Nat × Nat) (hmn : m ≠ n) :
    lookupNN (dictInsertNN es n v) m = lookupNN es m := by
  have hb : (n == m) = false := by
    rw [beq_eq_false_iff_ne]
    exact Ne.symm hmn
  induction es with
  | nil => simp [dictInsertNN, lookupNN, List.find?, hb]
  | cons e es ih =>
      by_cases h : e.1 = n
      · simp only [dictInsertNN, h, if_pos]
        simp [lookupNN, List.find?, hb, h]
      · simp only [dictInsertNN, if_neg h]
        by_cases h2 : e.1 = m
        · have hbm : (e.1 == m) = true := by simp [h2]
          simp [lookupNN, List.find?, hbm]
        · have hbm : (e.1 == m) = false := by
            rw [beq_eq_false_iff_ne]
            exact h2
          simpa [lookupNN, List.find?, hbm] using ih

theorem lastData_cons (p : String × List Nat) (rest : List (String × List Nat))
    (n : String) :
    lastData (p :: rest) n =
      match lastData rest n with
      | some d => some d
      | none => if p.1 = n then some p.2 else none := rfl

theorem writeAllFrom_file_ext (ps : List (String × List Nat)) (w : RpaWriterS) :
    ∃ ext : List Nat, (writeAllFrom w ps).file = w.file ++ ext ∧
      ext.length = totalLen ps := by
  induction ps generalizing w with
  | nil => exact ⟨[], by simp [writeAllFrom, totalLen]⟩
  | cons p rest ih =>
      obtain ⟨ext, h1, h2⟩ := ih (add_file w p.1 p.2)
      refine ⟨p.2 ++ ext, ?_, ?_⟩
      · simp [writeAllFrom, add_file] at h1 ⊢
        exact h1
      · simp [h2, totalLen]

theorem writeAllFrom_key (ps : List (String × List Nat)) (w : RpaWriterS) :
    (writeAllFrom w ps).key = w.key := by
  induction ps generalizing w with
  | nil => rfl
  | cons p rest ih => simpa [writeAllFrom, add_file] using ih (add_file w p.1 p.2)

theorem lastData_none_lookup (ps : List (String × List Nat)) (w : RpaWriterS)
    (n : String) (h : lastData ps n = none) :
    lookupNN (writeAllFrom w ps).entries n = lookupNN w.entries n := by
  induction ps generalizing w with
  | nil => rfl
  | cons p rest ih =>
      rw [lastData_cons] at h
      rcases hr : lastData rest n with _ | d
      · rw [hr] at h
        have hp : p.1 ≠ n := by
          intro he
          simp [he] at h
        rw [writeAllFrom, ih _ hr]
        simp [add_file]
        exact lookupNN_insert_ne _ _ (Ne.symm hp)
      · rw [hr] at h; exact absurd h (by simp)

/-- Core writer correctness: the index entry recorded for `n` after a batch
of `add_file` calls is the (offset, length) of the last call naming `n`,
and that offset/length slices the final file to exactly the last data. -/
theorem writeAllFrom_lastData (ps : List (String × List Nat)) (w : RpaWriterS)
    (n : String) (d : List Nat) (h : lastData ps n = some d) :
    ∃ o, lookupNN (writeAllFrom w ps).entries n = some (o, d.length) ∧
      entryOk (writeAllFrom w ps).file o d.length d := by
  induction ps generalizing w with
  | nil => exact absurd h (by simp [lastData])
  | cons p rest ih =>
      rw [lastData_cons] at h
      rcases hr : lastData rest n with _ | d'
      · rw [hr] at h
        by_cases hp : p.1 = n
        · simp [hp] at h
          subst h
          refine ⟨w.file.length, ?_, ?_⟩
          · rw [writeAllFrom, lastData_none_lookup rest _ n hr]
            simp [add_file, hp]
            exact lookupNN_insert_self _ _ _
          · have hbase : entryOk (add_file w p.1 p.2).file w.file.length
                p.2.length p.2 := by
              refine ⟨by simp [add_file], rfl, ?_⟩
              simp [add_file]
            obtain ⟨ext, he, _⟩ := writeAllFrom_file_ext rest (add_file w p.1 p.2)
            rw [writeAllFrom, he]
            exact entryOk_append hbase
        · simp [hp] at h
      · rw [hr] at h
        cases h
        exact ih (add_file w p.1 p.2) hr

theorem lookupNN_cons_none {e : String × Nat × Nat} {es : List (String × Nat × Nat)}
    {n : String} (h : lookupNN (e :: es) n = none) :
    e.1 ≠ n ∧ lookupNN es n = none := by
  by_cases hb : e.1 = n
  · have : (e.1 == n) = true := by simp [hb]
    simp [lookupNN, List.find?, this] at h
  · have hbf : (e.1 == n) = false := by
      rw [beq_eq_false_iff_ne]
      exact hb
    refine ⟨hb, ?_⟩
    simpa [lookupNN, List.find?, hbf] using h

theorem dictInsertNN_keys_new {es : List (String × Nat × Nat)} {n : String}
    (v : Nat × Nat) (h : lookupNN es n = none) :
    (dictInsertNN es n v).map Prod.fst = es.map Prod.fst ++ [n] := by
  induction es with
  | nil => simp [dictInsertNN]
  | cons e es ih =>
      obtain ⟨hne, htail⟩ := lookupNN_cons_none h
      simp only [dictInsertNN, if_neg hne, List.map_cons, List.cons_append,
        List.cons.injEq, true_and]
      exact ih htail

theorem lastData_of_not_mem {ps : List (String × List Nat)} {n : String}
    (h : n ∉ ps.map Prod.fst) : lastData ps n = none := by
  induction ps with
  | nil => rfl
  | cons p rest ih =>
      simp only [List.map_cons, List.mem_cons] at h
      push_neg at h
      rw [lastData_cons, ih h.2]
      simp [Ne.symm h.1]

theorem mem_nodup_lastData {ps : List (String × List Nat)} {n : String}
    {d : List Nat} (hn : (ps.map Prod.fst).Nodup) (hm : (n, d) ∈ ps) :
    lastData ps n = some d := by
  induction ps with
  | nil => exact absurd hm (by simp)
  | cons p rest ih =>
      simp only [List.map_cons, List.nodup_cons] at hn
      rcases List.mem_cons.mp hm with h | h
      · have hnm : n ∉ rest.map Prod.fst := by
          rw [← h] at hn
          exact hn.1
        rw [lastData_cons, lastData_of_not_mem hnm, ← h]
        simp
      · rw [lastData_cons, ih hn.2 h]

theorem writeAllFrom_keys (ps : List (String × List Nat)) (w : RpaWriterS)
    (hfresh : ∀ n ∈ ps.map Prod.fst, lookupNN w.entries n = none)
    (hn : (ps.map Prod.fst).Nodup) :
    (writeAllFrom w ps).entries.map Prod.fst =
      w.entries.map Prod.fst ++ ps.map Prod.fst := by
  induction ps generalizing w with
  | nil => simp [writeAllFrom]
  | cons p rest ih =>
      simp only [List.map_cons, List.nodup_cons] at hn
      have hp : lookupNN w.entries p.1 = none := hfresh p.1 (by simp)
      have hkeys : (add_file w p.1 p.2).entries.map Prod.fst =
          w.entries.map Prod.fst ++ [p.1] := by
        simp only [add_file]
        exact dictInsertNN_keys_new _ hp
      have hfresh' : ∀ n ∈ rest.map Prod.fst,
          lookupNN (add_file w p.1 p.2).entries n = none := by
        intro n hmem
        have hne : n ≠ p.1 := by
          intro he
          exact hn.1 (he ▸ hmem)
        simp only [add_file]
        rw [lookupNN_insert_ne _ _ hne]
        exact hfresh n (by simp [hmem])
      rw [writeAllFrom, ih _ hfresh' hn.2, hkeys]
      simp

theorem readIndexM_finish (w : RpaWriterS) :
    readIndexM (finish w) =
      w.entries.map (fun e => (e.1, ⟨e.1, e.2.1, e.2.2, []⟩)) := by
  simp [readIndexM, finish, Function.comp_def, Nat.xor_cancel_right]

theorem lookupIndex_finish {w : RpaWriterS} {n : String} {o l : Nat}
    (h : lookupNN w.entries n = some (o, l)) :
    lookupIndex (finish w) n = some ⟨n, o, l, []⟩ := by
  unfold lookupIndex
  rw [readIndexM_finish, List.find?_map]
  simp only [lookupNN] at h
  rcases hf : w.entries.find? (fun e => e.1 == n) with _ | e0
  · rw [hf] at h
    simp at h
  · rw [hf] at h
    have hn : e0.1 = n := by
      have := List.find?_some hf
      simpa using this
    have hsnd : e0.2 = (o, l) := by simpa using h
    have hcomp : ((fun p : String × RpaEntry => p.1 == n) ∘
        (fun e : String × Nat × Nat => (e.1, (⟨e.1, e.2.1, e.2.2, []⟩ : RpaEntry)))) =
        (fun e : String × Nat × Nat => e.1 == n) := by
      funext e
      rfl
    rw [hcomp, hf]
    simp [hn, hsnd]

/-- **C1.** Round-trip law: for pairwise distinct names, writing every
`(name, bytes)` pair through `RpaWriter.add_file` + `finish` and reading
back through `RpaReader.read_index` + `read_file` recovers exactly the
original bytes, and the index key list equals the written name list.  The
trailing `blob` stands for the serialized index bytes that follow the
payload in the real file; the result holds for any such blob. -/
theorem rpa_roundtrip (key : Nat) (pairs : List (String × List Nat))
    (hn : (pairs.map Prod.fst).Nodup) :
    ((readIndexM (finish (writeAll key pairs))).map Prod.fst =
      pairs.map Prod.fst) ∧
    ∀ p ∈ pairs, ∃ e, lookupIndex (finish (writeAll key pairs)) p.1 = some e ∧
      ∀ blob : List Nat,
        readFileBytes ((finish (writeAll key pairs)).payload ++ blob) e = p.2 := by
  constructor
  · rw [readIndexM_finish, List.map_map]
    have hcomp : (Prod.fst ∘ fun e : String × Nat × Nat =>
        (e.1, (⟨e.1, e.2.1, e.2.2, []⟩ : RpaEntry))) =
        (Prod.fst : String × Nat × Nat → String) := by
      funext e
      rfl
    rw [hcomp, writeAll, writeAllFrom_keys pairs (initWriter key) (fun n _ => rfl) hn]
    rfl
  · intro p hp
    have hlast : lastData pairs p.1 = some p.2 := mem_nodup_lastData hn hp
    obtain ⟨o, hl, hok⟩ := writeAllFrom_lastData pairs (initWriter key) p.1 p.2 hlast
    refine ⟨⟨p.1, o, p.2.length, []⟩, lookupIndex_finish hl, ?_⟩
    intro blob
    rw [readFileBytes_eq]
    simp only [finish, writeAll, List.nil_append]
    rw [slice_append hok.1]
    exact hok.2.2

/-- Witness for C1 at a concrete input. -/
theorem rpa_roundtrip_witness :
    (readIndexM (finish (writeAll 7 [("a", [1]), ("b", [2, 3])]))).map Prod.fst =
      ["a", "b"] :=
  (rpa_roundtrip 7 [("a", [1]), ("b", [2, 3])] (by decide)).1

/-- **C10.** Duplicate names are not rejected by `add_file`: the index that
`finish` writes maps a duplicated name to the offset and length of the
last `add_file` call with that name, reading the entry back returns the
last-written bytes, and the payload still contains every byte of every
call (40 header bytes plus the total data length), so earlier duplicate
bytes remain in the file body. -/
theorem rpa_duplicate_last_wins (key : Nat) (pairs : List (String × List Nat))
    (n : String) (d : List Nat) (h : lastData pairs n = some d) :
    (∃ e, lookupIndex (finish (writeAll key pairs)) n = some e ∧
      e.length = d.length ∧
      ∀ blob : List Nat,
        readFileBytes ((finish (writeAll key pairs)).payload ++ blob) e = d) ∧
    (finish (writeAll key pairs)).payload.length = 40 + totalLen pairs := by
  constructor
  · obtain ⟨o, hl, hok⟩ := writeAllFrom_lastData pairs (initWriter key) n d h
    refine ⟨⟨n, o, d.length, []⟩, lookupIndex_finish hl, rfl, ?_⟩
    intro blob
    rw [readFileBytes_eq]
    simp only [finish, writeAll, List.nil_append]
    rw [slice_append hok.1]
    exact hok.2.2
  · obtain ⟨ext, he, hlen⟩ := writeAllFrom_file_ext pairs (initWriter key)
    simp only [finish, writeAll]
    rw [he, List.length_append, hlen]
    simp only [initWriter, List.length_replicate]

/-- Witness for C10: two writes under the same name; the index keeps the
last data and the payload keeps both blobs. -/
theorem rpa_duplicate_last_wins_witness :
    (finish (writeAll 5 [("a", [1]), ("a", [2, 3])])).payload.length =
      40 + totalLen [("a", [1]), ("a", [2, 3])] :=
  (rpa_duplicate_last_wins 5 [("a", [1]), ("a", [2, 3])] "a" [2, 3] (by decide)).2

/-- **C7 counterexample.** `read_file` does not fail on an entry whose end
lies past EOF: at a concrete archive of 3 bytes and an entry with
offset 10 and length 5, it returns the empty byte string — fewer bytes
than `entry.length` — rather than raising any `ShortRead` error (the
embedding is total exactly because Python `file.read` returns the
available bytes at EOF without raising). -/
theorem read_file_short_counterexample :
    readFileBytes [1, 2, 3] ⟨"img.png", 10, 5, []⟩ = [] ∧
    (readFileBytes [1, 2, 3] ⟨"img.png", 10, 5, []⟩).length < 5 := by
  decide

/-- **C7 (amended).** `read_file` never fails: it returns the prefix plus
the available bytes, so its result length is `prefix length + min
(entry.length) (file length - entry.offset)`; when the recorded end lies
past EOF the result is silently shorter than `entry.length`. -/
theorem read_file_length (file : List Nat) (e : RpaEntry) :
    (readFileBytes file e).length =
      e.pfx.length + min e.length (file.length - e.offset) := by
  rw [readFileBytes_eq]
  simp [List.length_take, List.length_drop]

/-! ## Sequence grouper: src/python/renpak/encode.py -/

/-- Strict lexicographic order on character lists by code point, the order
Python uses to compare `str` values. -/
def listLtB : List Char → List Char → Bool
  | [], [] => false
  | [], _ :: _ => true
  | _ :: _, [] => false
  | a :: as, b :: bs =>
      if a.toNat < b.toNat then true
      else if a.toNat = b.toNat then listLtB as bs
      else false

/-- Python tuple comparison `(num, name) <= (num', name')`. -/
def pairLeB (a b : Nat × String) : Bool :=
  if a.1 < b.1 then true
  else if a.1 = b.1 then (listLtB a.2.data b.2.data || a.2 == b.2)
  else false

def orderedInsert (a : Nat × String) : List (Nat × String) → List (Nat × String)
  | [] => [a]
  | b :: bs => if pairLeB a b then a :: b :: bs else b :: orderedInsert a bs

/-- Model of Python `list.sort()` on `(int, str)` tuples: ascending order
under the total order `pairLeB`. -/
def sortItems : List (Nat × String) → List (Nat × String)
  | [] => []
  | a :: as => orderedInsert a (sortItems as)

/-- Split a name at its last dot, requiring a non-empty dot-free extension
after it (the `(\.[^.]+)$` part of `_NUM_RE`: since `[^.]+` excludes dots
and is anchored at the end, the matched dot is necessarily the last one).
Returns (stem, extension without the dot). -/
def splitLastDot (cs : List Char) : Option (List Char × List Char) :=
  let r := cs.reverse
  let extRev := r.takeWhile (fun c => c ≠ '.')
  match r.dropWhile (fun c => c ≠ '.') with
  | [] => none
  | _ :: stemRev =>
      if extRev.isEmpty then none else some (stemRev.reverse, extRev.reverse)

/-- Split a stem into (front, maximal trailing digit run): the effect of
the lazy `(.*?)` followed by the greedy `(\d+)` pinned against the
extension.  Python `\d` also matches non-ASCII decimal digits; archive
entry names are ASCII, and this model uses ASCII digits. -/
def splitTrailingDigits (stem : List Char) : List Char × List Char :=
  let r := stem.reverse
  ((r.dropWhile Char.isDigit).reverse, (r.takeWhile Char.isDigit).reverse)

/-- Value of Python `int` on a non-empty ASCII digit string. -/
def digitsToNat (ds : List Char) : Nat :=
  ds.foldl (fun a c => 10 * a + (c.toNat - 48)) 0

/-- Model of `_NUM_RE.match(name)` = `^(.*?)(\d+)(\.[^.]+)$`: on success
returns (group 1 = front, int(group 2) = trailing number of the stem,
group 3 = dot plus extension). -/
def matchNumRe (name : String) : Option (String × Nat × String) :=
  match splitLastDot name.data with
  | none => none
  | some (stem, ext) =>
      let (front, digits) := splitTrailingDigits stem
      if digits.isEmpty then none
      else some (⟨front⟩, digitsToNat digits, ⟨'.' :: ext⟩)

/-- `SEQUENCE_THRESHOLD` in encode.py. -/
def SEQUENCE_THRESHOLD : Nat := 5

/-- `defaultdict(list)` append `groups[k].append(v)`: append to the first
(unique) bucket with that key, or create the bucket at the end. -/
def bucketAdd : List (String × List (Nat × String)) → String → Nat × String →
    List (String × List (Nat × String))
  | [], k, v => [(k, [v])]
  | b :: bs, k, v =>
      if b.1 = k then (b.1, b.2 ++ [v]) :: bs else b :: bucketAdd bs k v

/-- Items of the bucket keyed `k` (empty when absent). -/
def bucketGet : List (String × List (Nat × String)) → String → List (Nat × String)
  | [], _ => []
  | b :: bs, k => if b.1 = k then b.2 else bucketGet bs k

/-- First loop of `group_by_prefix`: route each name into the bucket keyed
by regex group 1 with its parsed number, or into `ungrouped` on no match. -/
def gbpFold : List String → List (String × List (Nat × String)) → List String →
    List (String × List (Nat × String)) × List String
  | [], bs, ung => (bs, ung)
  | n :: rest, bs, ung =>
      match matchNumRe n with
      | some (p, k, _) => gbpFold rest (bucketAdd bs p (k, n)) ung
      | none => gbpFold rest bs (ung ++ [n])

/-- Second loop of `group_by_prefix`: sort each bucket, emit it as a group
when it has at least `SEQUENCE_THRESHOLD` members, otherwise flatten its
members into `ungrouped`. -/
def gbpEmit : List (String × List (Nat × String)) →
    List (String × List String) → List String →
    List (String × List String) × List String
  | [], gs, ung => (gs, ung)
  | b :: bs, gs, ung =>
      let sorted := sortItems b.2
      if SEQUENCE_THRESHOLD ≤ sorted.length
      then gbpEmit bs (gs ++ [(b.1, sorted.map Prod.snd)]) ung
      else gbpEmit bs gs (ung ++ sorted.map Prod.snd)

/-- Model of `group_by_prefix` in encode.py. -/
def group_by_prefix (names : List String) :
    List (String × List String) × List String :=
  let fr := gbpFold names [] []
  gbpEmit fr.1 [] fr.2

theorem bucketGet_bucketAdd_self (bs : List (String × List (Nat × String)))
    (k : String) (v : Nat × String) :
    bucketGet (bucketAdd bs k v) k = bucketGet bs k ++ [v] := by
  induction bs with
  | nil => simp [bucketAdd, bucketGet]
  | cons b bs ih =>
      by_cases h : b.1 = k
      · simp [bucketAdd, bucketGet, h]
      · simp [bucketAdd, bucketGet, h, ih]

theorem bucketGet_bucketAdd_ne (bs : List (String × List (Nat × String)))
    {p k : String} (v : Nat × String) (hpk : p ≠ k) :
    bucketGet (bucketAdd bs k v) p = bucketGet bs p := by
  induction bs with
  | nil =>
      simp only [bucketAdd, bucketGet]
      rw [if_neg (Ne.symm hpk)]
  | cons b bs ih =>
      by_cases h : b.1 = k
      · have hbp : ¬b.1 = p := by rw [h]; exact Ne.symm hpk
        simp only [bucketAdd, if_pos h, bucketGet]
        rw [if_neg (h ▸ hbp), if_neg hbp]
      · simp only [bucketAdd, if_neg h, bucketGet]
        by_cases h2 : b.1 = p
        · rw [if_pos h2, if_pos h2]
        · rw [if_neg h2, if_neg h2]
          exact ih

theorem gbpFold_bucket_mono (names : List String)
    (bs : List (String × List (Nat × String))) (ung : List String)
    (p : String) (v : Nat × String) (hv : v ∈ bucketGet bs p) :
    v ∈ bucketGet (gbpFold names bs ung).1 p := by
  induction names generalizing bs ung with
  | nil => exact hv
  | cons n rest ih =>
      rw [gbpFold]
      rcases hm : matchNumRe n with _ | t
      · exact ih bs (ung ++ [n]) hv
      · refine ih (bucketAdd bs t.1 (t.2.1, n)) ung ?_
        by_cases hp : p = t.1
        · rw [hp, bucketGet_bucketAdd_self]
          exact List.mem_append_left _ (hp ▸ hv)
        · rw [bucketGet_bucketAdd_ne _ _ hp]
          exact hv

theorem gbpFold_mem_bucket (names : List String)
    (bs : List (String × List (Nat × String))) (ung : List String)
    {n p : String} {k : Nat} {e : String} (hmem : n ∈ names)
    (hmatch : matchNumRe n = some (p, k, e)) :
    (k, n) ∈ bucketGet (gbpFold names bs ung).1 p := by
  induction names generalizing bs ung with
  | nil => exact absurd hmem (by simp)
  | cons n0 rest ih =>
      rw [gbpFold]
      rcases List.mem_cons.mp hmem with h | h
      · subst h
        rw [hmatch]
        refine gbpFold_bucket_mono rest _ ung p (k, n) ?_
        rw [bucketGet_bucketAdd_self]
        exact List.mem_append_right _ (by simp)
      · rcases hm : matchNumRe n0 with _ | t
        · exact ih _ _ h
        · exact ih _ _ h

/-- **C2 counterexample.** Names with the same textual prefix and trailing
number but different extensions land in the same bucket and merge into one
group: the bucket key is regex group 1 alone, with no extension in it.
The five names below mix `.jpg` and `.png` yet form the single group
keyed `"img "`. -/
theorem grouper_bucket_merges_extensions :
    matchNumRe "img 1.jpg" = some ("img ", 1, ".jpg") ∧
    matchNumRe "img 2.png" = some ("img ", 2, ".png") ∧
    group_by_prefix ["img 1.jpg", "img 2.png", "img 3.png", "img 4.png",
        "img 5.png"] =
      ([("img ", ["img 1.jpg", "img 2.png", "img 3.png", "img 4.png",
        "img 5.png"])], []) := by
  decide

/-- **C2 (amended).** Every name matching `^(.*?)(\d+)(\.[^.]+)$` is placed
in the bucket keyed by group 1 (the textual prefix) alone — the extension
is not part of the key — carrying the parsed integer; names that differ
only in extension therefore share a bucket. -/
theorem grouper_bucket_key (names : List String) {n p : String} {k : Nat}
    {e : String} (hmem : n ∈ names)
    (hmatch : matchNumRe n = some (p, k, e)) :
    (k, n) ∈ bucketGet (gbpFold names [] []).1 p :=
  gbpFold_mem_bucket names [] [] hmem hmatch

/-- Witness for C2's amended theorem at a concrete name. -/
theorem grouper_bucket_key_witness :
    (1, "img 1.jpg") ∈ bucketGet (gbpFold ["img 1.jpg"] [] []).1 "img " :=
  @grouper_bucket_key ["img 1.jpg"] "img 1.jpg" "img " 1 ".jpg" (by simp)
    (by decide)

/-- Concatenated member names of the emitted groups. -/
def membersOf : List (String × List String) → List String
  | [] => []
  | g :: gs => g.2 ++ membersOf gs

/-- Concatenated names stored in the buckets. -/
def bucketNames : List (String × List (Nat × String)) → List String
  | [] => []
  | b :: bs => b.2.map Prod.snd ++ bucketNames bs

theorem membersOf_append (gs1 gs2 : List (String × List String)) :
    membersOf (gs1 ++ gs2) = membersOf gs1 ++ membersOf gs2 := by
  induction gs1 with
  | nil => rfl
  | cons g gs ih => simp [membersOf, ih]

theorem orderedInsert_perm (a : Nat × String) (l : List (Nat × String)) :
    (orderedInsert a l).Perm (a :: l) := by
  induction l with
  | nil => exact List.Perm.refl _
  | cons b bs ih =>
      rw [orderedInsert]
      by_cases h : pairLeB a b = true
      · rw [if_pos h]
      · rw [if_neg h]
        exact (ih.cons b).trans (List.Perm.swap a b bs)

theorem sortItems_perm (l : List (Nat × String)) : (sortItems l).Perm l := by
  induction l with
  | nil => exact List.Perm.refl _
  | cons a as ih => exact (orderedInsert_perm a (sortItems as)).trans (ih.cons a)

theorem bucketNames_bucketAdd (bs : List (String × List (Nat × String)))
    (k : String) (v : Nat × String) :
    (bucketNames (bucketAdd bs k v)).Perm (bucketNames bs ++ [v.2]) := by
  induction bs with
  | nil => simp [bucketAdd, bucketNames]
  | cons b bs ih =>
      by_cases h : b.1 = k
      · simp only [bucketAdd, if_pos h, bucketNames]
        rw [← Multiset.coe_eq_coe]
        simp only [← Multiset.coe_add, List.map_append, List.map_cons,
          List.map_nil]
        abel
      · simp only [bucketAdd, if_neg h, bucketNames]
        rw [← Multiset.coe_eq_coe] at ih ⊢
        simp only [← Multiset.coe_add] at ih ⊢
        rw [ih]
        abel

theorem gbpFold_names_perm (names : List String)
    (bs : List (String × List (Nat × String))) (ung : List String) :
    (bucketNames (gbpFold names bs ung).1 ++ (gbpFold names bs ung).2).Perm
      ((bucketNames bs ++ ung) ++ names) := by
  induction names generalizing bs ung with
  | nil => simp [gbpFold]
  | cons n rest ih =>
      rw [gbpFold]
      rcases hm : matchNumRe n with _ | t
      · refine (ih bs (ung ++ [n])).trans ?_
        rw [← Multiset.coe_eq_coe]
        simp only [← Multiset.coe_add]
        have : (↑[n] : Multiset String) + ↑rest = ↑(n :: rest) := by
          rw [Multiset.coe_add]
          rfl
        rw [← this]
        abel
      · refine (ih (bucketAdd bs t.1 (t.2.1, n)) ung).trans ?_
        have hb := bucketNames_bucketAdd bs t.1 (t.2.1, n)
        rw [← Multiset.coe_eq_coe] at hb ⊢
        simp only [← Multiset.coe_add] at hb ⊢
        rw [hb]
        have : (↑[n] : Multiset String) + ↑rest = ↑(n :: rest) := by
          rw [Multiset.coe_add]
          rfl
        rw [← this]
        abel

theorem gbpEmit_names_perm (bs : List (String × List (Nat × String)))
    (gs : List (String × List String)) (ung : List String) :
    (membersOf (gbpEmit bs gs ung).1 ++ (gbpEmit bs gs ung).2).Perm
      ((membersOf gs ++ ung) ++ bucketNames bs) := by
  induction bs generalizing gs ung with
  | nil => simp [gbpEmit, bucketNames]
  | cons b bs ih =>
      rw [gbpEmit]
      have hsort : ((sortItems b.2).map Prod.snd).Perm (b.2.map Prod.snd) :=
        (sortItems_perm b.2).map Prod.snd
      by_cases h : SEQUENCE_THRESHOLD ≤ (sortItems b.2).length
      · rw [if_pos h]
        refine (ih _ ung).trans ?_
        rw [membersOf_append]
        rw [← Multiset.coe_eq_coe] at hsort ⊢
        simp only [← Multiset.coe_add, membersOf, bucketNames] at hsort ⊢
        rw [hsort]
        abel
      · rw [if_neg h]
        refine (ih gs _).trans ?_
        rw [← Multiset.coe_eq_coe] at hsort ⊢
        simp only [← Multiset.coe_add, bucketNames] at hsort ⊢
        rw [hsort]
        abel

/-- **C3.** `group_by_prefix` preserves the multiset of input names: the
concatenation of all group member lists with the ungrouped list is a
permutation of the input list, so every input name appears exactly once in
exactly one of the two outputs and nothing else appears. -/
theorem grouper_preserves_names (names : List String) :
    (membersOf ( group_by_prefix names).1 ++
      ( group_by_prefix names).2).Perm names := by
  have h1 := gbpFold_names_perm names [] []
  have h2 := gbpEmit_names_perm (gbpFold names [] []).1 []
    (gbpFold names [] []).2
  refine h2.trans ?_
  simp only [membersOf, List.nil_append, bucketNames] at h1 ⊢
  exact (List.perm_append_comm).trans h1

/-! ## Encode limit: src/python/renpak/build.py, `_build_rpa` limit block -/

/-- Non-strict lexicographic order on strings by code point (Python `str`
ordering). -/
def strLeB (a b : String) : Bool :=
  listLtB a.data b.data || a == b

def orderedInsertS (a : String) : List String → List String
  | [] => [a]
  | b :: bs => if strLeB a b then a :: b :: bs else b :: orderedInsertS a bs

/-- Model of Python `sorted()` on a list of names. -/
def sortNames : List String → List String
  | [] => []
  | a :: as => orderedInsertS a (sortNames as)

/-- Model of the limit block of `_build_rpa`: with `limit > 0` keep the
first `limit` image names in sorted order and move the rest to the
verbatim-copy set (`others`); with `limit = 0` the block is skipped and
every image is kept. Returns (kept, moved). -/
def limitFilter (names : List String) (limit : Nat) : List String × List String :=
  if 0 < limit then ((sortNames names).take limit, (sortNames names).drop limit)
  else (names, [])

theorem orderedInsertS_perm (a : String) (l : List String) :
    (orderedInsertS a l).Perm (a :: l) := by
  induction l with
  | nil => exact List.Perm.refl _
  | cons b bs ih =>
      rw [orderedInsertS]
      by_cases h : strLeB a b = true
      · rw [if_pos h]
      · rw [if_neg h]
        exact (ih.cons b).trans (List.Perm.swap a b bs)

theorem sortNames_perm (l : List String) : (sortNames l).Perm l := by
  induction l with
  | nil => exact List.Perm.refl _
  | cons a as ih => exact (orderedInsertS_perm a (sortNames as)).trans (ih.cons a)

theorem gbpEmit_group_length (bs : List (String × List (Nat × String)))
    (gs : List (String × List String)) (ung : List String)
    (hgs : ∀ g ∈ gs, SEQUENCE_THRESHOLD ≤ g.2.length) :
    ∀ g ∈ (gbpEmit bs gs ung).1, SEQUENCE_THRESHOLD ≤ g.2.length := by
  induction bs generalizing gs ung with
  | nil => exact hgs
  | cons b bs ih =>
      rw [gbpEmit]
      by_cases h : SEQUENCE_THRESHOLD ≤ (sortItems b.2).length
      · rw [if_pos h]
        refine ih _ ung ?_
        intro g hg
        rcases List.mem_append.mp hg with hg | hg
        · exact hgs g hg
        · have : g = (b.1, (sortItems b.2).map Prod.snd) := by simpa using hg
          rw [this]
          simpa using h
      · rw [if_neg h]
        exact ih gs _ hgs

/-- **C9 counterexample.** A limit (5) smaller than a would-be group's
size (6) does produce a partial group: the kept five same-prefix names
still meet the threshold and are emitted as a group that is a proper
subset of the six-member group formed without the limit. -/
theorem limit_partial_group_counterexample :
    ( group_by_prefix (limitFilter ["s 1.png", "s 2.png", "s 3.png",
        "s 4.png", "s 5.png", "s 6.png"] 5).1).1 =
      [("s ", ["s 1.png", "s 2.png", "s 3.png", "s 4.png", "s 5.png"])] ∧
    ( group_by_prefix ["s 1.png", "s 2.png", "s 3.png", "s 4.png",
        "s 5.png", "s 6.png"]).1 =
      [("s ", ["s 1.png", "s 2.png", "s 3.png", "s 4.png", "s 5.png",
        "s 6.png"])] := by
  decide

/-- **C9 (amended).** `limit = 0` keeps every classified image; `limit > 0`
keeps exactly the first `limit` names in ascending sorted order, moving
the rest to the verbatim-copy set before grouping runs (kept ++ moved is a
permutation of the input, and a limit at least the image count moves
nothing, encoding all images); grouping then runs on the kept set only,
and every emitted group has at least `SEQUENCE_THRESHOLD` kept members —
so a limit that leaves a would-be group under the threshold dissolves it
into scatter images, while a limit that leaves at least the threshold
yields a truncated group of only the kept members. -/
theorem limit_filters_before_grouping (names : List String) (limit : Nat) :
    (limit = 0 → limitFilter names limit = (names, [])) ∧
    (0 < limit →
      limitFilter names limit =
        ((sortNames names).take limit, (sortNames names).drop limit)) ∧
    ((limitFilter names limit).1 ++ (limitFilter names limit).2).Perm names ∧
    (names.length ≤ limit → (limitFilter names limit).2 = []) ∧
    (∀ g ∈ ( group_by_prefix (limitFilter names limit).1).1,
      SEQUENCE_THRESHOLD ≤ g.2.length) := by
  refine ⟨?_, ?_, ?_, ?_, ?_⟩
  · intro h
    simp [limitFilter, h]
  · intro h
    simp [limitFilter, h]
  · unfold limitFilter
    by_cases h : 0 < limit
    · rw [if_pos h]
      simp only [List.take_append_drop]
      exact sortNames_perm names
    · rw [if_neg h]
      simp
  · intro h
    unfold limitFilter
    by_cases h0 : 0 < limit
    · rw [if_pos h0]
      refine List.drop_eq_nil_of_le ?_
      rw [(sortNames_perm names).length_eq]
      exact h
    · rw [if_neg h0]
  · exact gbpEmit_group_length _ [] _ (by simp)

/-- Witness for C9 at the spec's own example shape: five `ale N.jpg`
names, with `limit = 0` everything is kept, and a limit of 7 (at least
the count) moves nothing to the verbatim set. -/
theorem limit_filters_before_grouping_witness :
    limitFilter ["images/01/ale 1.jpg", "images/01/ale 2.jpg",
        "images/01/ale 3.jpg", "images/01/ale 4.jpg",
        "images/01/ale 5.jpg"] 0 =
      (["images/01/ale 1.jpg", "images/01/ale 2.jpg", "images/01/ale 3.jpg",
        "images/01/ale 4.jpg", "images/01/ale 5.jpg"], []) ∧
    (limitFilter ["images/01/ale 1.jpg", "images/01/ale 2.jpg",
        "images/01/ale 3.jpg", "images/01/ale 4.jpg",
        "images/01/ale 5.jpg"] 7).2 = [] :=
  ⟨(limit_filters_before_grouping _ 0).1 rfl,
    (limit_filters_before_grouping _ 7).2.2.2.1 (by decide)⟩

/-! ## Phase A scheduler: src/python/renpak/build.py, `_submit_avis_groups`
and the completion loop -/

/-- Per-frame memory estimate used by the scheduler:
`(1920 * 1080) * _RGBA_BPP * _FRAME_MEM_MULTIPLIER`. -/
def frame_mem : Nat := 1920 * 1080 * 4 * 3

/-- Scheduler state: the submission queue (frame count of each pending
group, head first), the memory estimates of the in-flight tasks
(`avis_futures` values), and the `mem_in_flight` counter. -/
structure SchedState where
  queue : List Nat
  inflight : List Nat
  mem : Nat
deriving Repr, DecidableEq

/-- Model of `_submit_avis_groups`: admit groups from the head of the
queue; stop when tasks are in flight and the next group's estimate would
push `mem_in_flight` over the budget (so an oversize group is admitted
only into an empty in-flight set). -/
def submit_avis_groups (budget : Nat) : List Nat → List Nat → Nat → SchedState
  | [], inflight, mem => ⟨[], inflight, mem⟩
  | g :: rest, inflight, mem =>
      let gm := g * frame_mem
      if inflight ≠ [] ∧ budget < mem + gm then ⟨g :: rest, inflight, mem⟩
      else submit_avis_groups budget rest (inflight ++ [gm]) (mem + gm)

/-- Reachable states of the Phase A loop: the initial submission from an
empty in-flight set, then any number of completions (remove one in-flight
task, subtract its estimate, re-run the admission check). -/
inductive ReachAvis (budget : Nat) : SchedState → Prop
  | init (q : List Nat) : ReachAvis budget (submit_avis_groups budget q [] 0)
  | step (s : SchedState) (i : Nat) (h : i < s.inflight.length)
      (hr : ReachAvis budget s) :
      ReachAvis budget
        (submit_avis_groups budget s.queue (s.inflight.eraseIdx i)
          (s.mem - s.inflight.getD i 0))

theorem getD_le_sum {l : List Nat} {i : Nat} (h : i < l.length) :
    l.getD i 0 ≤ l.sum := by
  induction l generalizing i with
  | nil => simp at h
  | cons a as ih =>
      cases i with
      | zero =>
          simp only [List.getD_cons_zero, List.sum_cons]
          omega
      | succ j =>
          have := ih (Nat.lt_of_succ_lt_succ h)
          simp only [List.getD_cons_succ, List.sum_cons]
          omega

theorem sum_eraseIdx {l : List Nat} {i : Nat} (h : i < l.length) :
    (l.eraseIdx i).sum = l.sum - l.getD i 0 := by
  induction l generalizing i with
  | nil => simp at h
  | cons a as ih =>
      cases i with
      | zero => simp [List.eraseIdx, List.getD_cons_zero]
      | succ j =>
          have hj : j < as.length := Nat.lt_of_succ_lt_succ h
          have hle := getD_le_sum hj
          simp only [List.eraseIdx_cons_succ, List.sum_cons, ih hj,
            List.getD_cons_succ]
          omega

/-- The loop invariant: `mem_in_flight` is the sum of the in-flight
estimates, and whenever it exceeds the budget exactly one task is in
flight. -/
def SchedInv (budget : Nat) (s : SchedState) : Prop :=
  s.mem = s.inflight.sum ∧ (budget < s.mem → s.inflight.length = 1)

theorem submit_avis_groups_inv (budget : Nat) (q : List Nat) :
    ∀ (inflight : List Nat) (mem : Nat), mem = inflight.sum →
      (budget < mem → inflight.length = 1) →
      SchedInv budget (submit_avis_groups budget q inflight mem) := by
  induction q with
  | nil => exact fun inflight mem h1 h2 => ⟨h1, h2⟩
  | cons g rest ih =>
      intro inflight mem h1 h2
      rw [submit_avis_groups]
      by_cases hc : inflight ≠ [] ∧ budget < mem + g * frame_mem
      · rw [if_pos hc]
        exact ⟨h1, h2⟩
      · rw [if_neg hc]
        push_neg at hc
        by_cases he : inflight = []
        · have hm : mem = 0 := by
            rw [h1, he]
            rfl
          refine ih (inflight ++ [g * frame_mem]) (mem + g * frame_mem) ?_ ?_
          · simp [h1]
          · intro _
            simp [he]
        · have hb : mem + g * frame_mem ≤ budget := hc he
          refine ih (inflight ++ [g * frame_mem]) (mem + g * frame_mem) ?_ ?_
          · simp [h1]
          · intro hlt
            omega

theorem reach_avis_inv (budget : Nat) (s : SchedState)
    (hr : ReachAvis budget s) : SchedInv budget s := by
  induction hr with
  | init q =>
      refine submit_avis_groups_inv budget q [] 0 rfl ?_
      intro h
      exact absurd h (Nat.not_lt_zero budget)
  | step s i hi _ ih =>
      obtain ⟨h1, h2⟩ := ih
      have hsum : (s.inflight.eraseIdx i).sum = s.mem - s.inflight.getD i 0 := by
        rw [h1]
        exact sum_eraseIdx hi
      refine submit_avis_groups_inv budget s.queue _ _ hsum.symm ?_
      intro hlt
      exfalso
      have hle : s.mem - s.inflight.getD i 0 ≤ s.mem := Nat.sub_le _ _
      have hbm : budget < s.mem := Nat.lt_of_lt_of_le hlt hle
      have hlen := h2 hbm
      obtain ⟨a, ha⟩ := List.length_eq_one.mp hlen
      have hi0 : i = 0 := by
        rw [ha] at hi
        simpa using Nat.lt_one_iff.mp (by simpa [ha] using hi)
      rw [ha] at h1
      simp only [List.sum_cons, List.sum_nil] at h1
      rw [hi0, ha] at hlt
      simp only [List.getD_cons_zero] at hlt
      omega

/-- **C4.** In the Phase A scheduling loop a group is admitted only when no
AVIS tasks are in flight or the running estimate stays within the budget
(this is the guard of `submit_avis_groups`); consequently, in every
reachable state of the loop, if `mem_in_flight` exceeds the budget then
exactly one group is in flight. -/
theorem avis_overbudget_single_task (budget : Nat) (s : SchedState)
    (hr : ReachAvis budget s) (hover : budget < s.mem) :
    s.inflight.length = 1 :=
  (reach_avis_inv budget s hr).2 hover

/-- Witness for C4: with budget 10 and one 1-frame group, the initial
submission admits the oversize group alone; its estimate (24883200)
exceeds the budget and exactly one task is in flight. -/
theorem avis_overbudget_single_task_witness :
    (submit_avis_groups 10 [1] [] 0).inflight.length = 1 :=
  avis_overbudget_single_task 10 (submit_avis_groups 10 [1] [] 0)
    (ReachAvis.init [1]) (by decide)

/-! ## Result collection and write phase: src/python/renpak/build.py,
`_worker_encode_avif`, `_collect_result` and the write phase -/

/-- Model of `get_avif_name` in encode.py:
`str(PurePosixPath(name).with_suffix('.avif'))`.  pathlib takes the suffix
of the final path component only, and only when its last dot is neither
the first nor the last character of that component. -/
def get_avif_name (n : String) : String :=
  let revAll := n.data.reverse
  let base := (revAll.takeWhile (fun c => c ≠ '/')).reverse
  let dir := (revAll.dropWhile (fun c => c ≠ '/')).reverse
  let extLen := (base.reverse.takeWhile (fun c => c ≠ '.')).length
  let newBase :=
    if extLen < base.length ∧ 0 < base.length - 1 - extLen ∧ 0 < extLen
    then base.take (base.length - 1 - extLen) ++ ".avif".data
    else base ++ ".avif".data
  ⟨dir ++ newBase⟩

/-- A manifest value: AVIF target name, or AVIS sequence plus frame index. -/
inductive ManVal where
  | avif (target : String)
  | avis (seq : String) (frame : Nat)
deriving DecidableEq, Repr

/-- Worker result tuples as produced by `_worker_encode_avif` and
`_worker_encode_avis` (the tag is the first tuple element in the source;
`entries_info` of an AVIS failure is kept as its member names). -/
inductive WorkerResult where
  | avisOk (pfx : String) (avisName : String) (data : List Nat)
      (names : List String) (groupOrig : Nat)
  | avisFail (pfx : String) (names : List String) (groupOrig : Nat)
      (err : String)
  | avifOk (name : String) (avifName : String) (data : List Nat) (origLen : Nat)
  | avifFail (name : String) (data : List Nat) (origLen : Nat) (err : String)
deriving DecidableEq, Repr

/-- The accumulators of `_build_rpa` that `_collect_result` mutates. -/
structure BuildState where
  manifest : List (String × ManVal)
  originalSize : Nat
  compressedSize : Nat
  encodedCount : Nat
  encodedResults : List (String × List Nat)
  fallbackToAvif : List String
deriving DecidableEq, Repr

/-- State at the start of encoding: everything empty. -/
def initBuildState : BuildState := ⟨[], 0, 0, 0, [], []⟩

/-- Python dict assignment on the manifest. -/
def dictInsertM : List (String × ManVal) → String → ManVal →
    List (String × ManVal)
  | [], n, v => [(n, v)]
  | e :: es, n, v => if e.1 = n then (n, v) :: es else e :: dictInsertM es n v

/-- Model of `_collect_result` in build.py. -/
def collectResult (s : BuildState) (r : WorkerResult) : BuildState :=
  match r with
  | .avisOk _ avisName data names groupOrig =>
      { s with
        encodedResults := s.encodedResults ++ [(avisName, data)],
        originalSize := s.originalSize + groupOrig,
        compressedSize := s.compressedSize + data.length,
        manifest := names.enum.foldl
          (fun m p => dictInsertM m p.2 (.avis avisName p.1)) s.manifest,
        encodedCount := s.encodedCount + names.length }
  | .avisFail _ names _ _ =>
      { s with fallbackToAvif := s.fallbackToAvif ++ names }
  | .avifOk name avifName data origLen =>
      { s with
        encodedResults := s.encodedResults ++ [(avifName, data)],
        manifest := dictInsertM s.manifest name (.avif avifName),
        originalSize := s.originalSize + origLen,
        compressedSize := s.compressedSize + data.length,
        encodedCount := s.encodedCount + 1 }
  | .avifFail name data origLen _ =>
      { s with
        encodedResults := s.encodedResults ++ [(name, data)],
        originalSize := s.originalSize + origLen,
        compressedSize := s.compressedSize + data.length }

/-- Model of `_worker_encode_avif`: read the entry from the archive
(prefix included), try the external AVIF encoder (abstracted as `enc`,
which either returns bytes or fails with an exception message). -/
def worker_encode_avif (file : List Nat) (name : String) (offset lengthArg : Nat)
    (pfx : List Nat) (enc : List Nat → Except String (List Nat)) : WorkerResult :=
  let data := readFileBytes file ⟨name, offset, lengthArg, pfx⟩
  match enc data with
  | .ok avifData => .avifOk name (get_avif_name name) avifData data.length
  | .error msg => .avifFail name data data.length msg

/-- The (name, data) arguments passed to `writer.add_file` by the write
phase, in order: every encoded result, then the verbatim `others`
entries, then the manifest under its well-known name. -/
def addFileTrace (s : BuildState) (others : List (String × List Nat))
    (manifestBytes : List Nat) : List (String × List Nat) :=
  s.encodedResults ++ others ++ [("renpak_manifest.json", manifestBytes)]

/-- The write phase itself: run the `add_file` calls of the trace on the
output writer. -/
def writePhase (out : RpaWriterS) (s : BuildState)
    (others : List (String × List Nat)) (manifestBytes : List Nat) : RpaWriterS :=
  writeAllFrom out (addFileTrace s others manifestBytes)

/-- Names under which a result stores manifest entries. -/
def manifestNamesOf : WorkerResult → List String
  | .avisOk _ _ _ names _ => names
  | .avifOk name _ _ _ => [name]
  | _ => []

/-- Python `str.lower` on ASCII names. -/
def strLower (s : String) : String := ⟨s.data.map Char.toLower⟩

theorem mem_keys_dictInsertM (m : List (String × ManVal)) (n : String)
    (v : ManVal) (k : String) :
    k ∈ (dictInsertM m n v).map Prod.fst ↔
      k ∈ m.map Prod.fst ∨ k = n := by
  induction m with
  | nil => simp [dictInsertM]
  | cons e es ih =>
      by_cases h : e.1 = n
      · simp only [dictInsertM, if_pos h, List.map_cons, List.mem_cons]
        rw [h]
        tauto
      · simp only [dictInsertM, if_neg h, List.map_cons, List.mem_cons, ih]
        tauto

theorem mem_keys_foldl_dictInsertM (f : Nat × String → ManVal)
    (l : List (Nat × String)) (m : List (String × ManVal)) (k : String) :
    k ∈ ((l.foldl (fun m p => dictInsertM m p.2 (f p)) m).map Prod.fst) ↔
      k ∈ m.map Prod.fst ∨ k ∈ l.map Prod.snd := by
  induction l generalizing m with
  | nil => simp
  | cons p rest ih =>
      simp only [List.foldl_cons, List.map_cons, List.mem_cons]
      rw [ih, mem_keys_dictInsertM]
      tauto

/-- **C5 counterexample.** Manifest keys are not lowercased by the build:
collecting an AVIF result for the name `"IMG.PNG"` stores the key
`"IMG.PNG"` as-is, which differs from `"img.png"` (its `str.lower`
image). The lowercasing happens in the runtime loader at load time, not
when the manifest is written. -/
theorem manifest_key_not_lowercase_counterexample :
    (collectResult initBuildState
        (WorkerResult.avifOk "IMG.PNG" "IMG.avif" [] 0)).manifest.map Prod.fst =
      ["IMG.PNG"] ∧
    strLower "IMG.PNG" = "img.png" ∧
    ("IMG.PNG" : String) ≠ "img.png" := by
  decide

/-- **C5 (amended).** Every key stored in the manifest by
`_collect_result` — in Phase A (AVIS results) and Phase B (AVIF results) —
is the original entry name unmodified: the key set after collecting a
result is the previous key set plus exactly the result's original names
(no case folding; the runtime loader lowercases keys when it loads the
manifest). -/
theorem manifest_keys_are_original_names (s : BuildState) (r : WorkerResult)
    (k : String) :
    k ∈ (collectResult s r).manifest.map Prod.fst ↔
      k ∈ s.manifest.map Prod.fst ∨ k ∈ manifestNamesOf r := by
  cases r with
  | avisOk p an data names go =>
      simp only [collectResult, manifestNamesOf]
      rw [mem_keys_foldl_dictInsertM]
      rw [List.enum_map_snd]
  | avisFail p names go err => simp [collectResult, manifestNamesOf]
  | avifOk name an data ol =>
      simp only [collectResult, manifestNamesOf]
      rw [mem_keys_dictInsertM]
      simp
  | avifFail name data ol err => simp [collectResult, manifestNamesOf]

/-- **C6.** When the AVIF encoder fails on an image, the worker returns
the full reconstructed original bytes (reader-side prefix included) under
the `avif_fail` tag; `_collect_result` then appends exactly
`(original name, original bytes)` to the encoded results — so the write
phase passes that pair to `writer.add_file` — and leaves the manifest
unchanged, so the name is absent from the manifest; collection is total,
so the failure never aborts the build. -/
theorem avif_fail_preserves_original (file : List Nat) (name : String)
    (offset lengthArg : Nat) (pfx : List Nat)
    (enc : List Nat → Except String (List Nat)) (msg : String) (s : BuildState)
    (henc : enc (readFileBytes file ⟨name, offset, lengthArg, pfx⟩) =
      .error msg)
    (hname : name ∉ s.manifest.map Prod.fst) :
    worker_encode_avif file name offset lengthArg pfx enc =
      .avifFail name (readFileBytes file ⟨name, offset, lengthArg, pfx⟩)
        (readFileBytes file ⟨name, offset, lengthArg, pfx⟩).length msg ∧
    readFileBytes file ⟨name, offset, lengthArg, pfx⟩ =
      pfx ++ (file.drop offset).take lengthArg ∧
    (collectResult s (worker_encode_avif file name offset lengthArg pfx enc)).manifest
      = s.manifest ∧
    name ∉ (collectResult s
      (worker_encode_avif file name offset lengthArg pfx enc)).manifest.map Prod.fst ∧
    (collectResult s (worker_encode_avif file name offset lengthArg pfx enc)).encodedResults
      = s.encodedResults ++
        [(name, readFileBytes file ⟨name, offset, lengthArg, pfx⟩)] ∧
    ∀ (others : List (String × List Nat)) (mb : List Nat),
      (name, readFileBytes file ⟨name, offset, lengthArg, pfx⟩) ∈
        addFileTrace (collectResult s
          (worker_encode_avif file name offset lengthArg pfx enc)) others mb := by
  have hw : worker_encode_avif file name offset lengthArg pfx enc =
      .avifFail name (readFileBytes file ⟨name, offset, lengthArg, pfx⟩)
        (readFileBytes file ⟨name, offset, lengthArg, pfx⟩).length msg := by
    simp only [worker_encode_avif, henc]
  refine ⟨hw, readFileBytes_eq _ _, ?_, ?_, ?_, ?_⟩
  · rw [hw]
    rfl
  · rw [hw]
    exact hname
  · rw [hw]
    rfl
  · intro others mb
    rw [hw]
    simp [addFileTrace, collectResult]

/-- Witness for C6 at a concrete failing encode. -/
theorem avif_fail_preserves_original_witness :
    (collectResult initBuildState
      (worker_encode_avif [9] "a.png" 0 1 [7]
        (fun _ => Except.error "boom"))).manifest = [] :=
  (avif_fail_preserves_original [9] "a.png" 0 1 [7]
    (fun _ => Except.error "boom") "boom" initBuildState rfl
    (by simp [initBuildState])).2.2.1

/-- Pairs a single worker result contributes to `encoded_results`. -/
def emittedOf : WorkerResult → List (String × List Nat)
  | .avisOk _ avisName data _ _ => [(avisName, data)]
  | .avisFail _ _ _ _ => []
  | .avifOk _ avifName data _ => [(avifName, data)]
  | .avifFail name data _ _ => [(name, data)]

/-- Pairs a sequence of worker results contributes, in collection order. -/
def emittedAll : List WorkerResult → List (String × List Nat)
  | [] => []
  | r :: rs => emittedOf r ++ emittedAll rs

theorem collectResult_encoded (s : BuildState) (r : WorkerResult) :
    (collectResult s r).encodedResults = s.encodedResults ++ emittedOf r := by
  cases r with
  | avisOk p an data names go => rfl
  | avisFail p names go err => simp [collectResult, emittedOf]
  | avifOk name an data ol => rfl
  | avifFail name data ol err => rfl

/-- **C8 counterexample.** The write phase does not sort the encoded
artifacts: collecting `b.avif` before `a.avif` makes the write phase pass
names to `add_file` in exactly that (descending) order, so the emitted
name sequence is not ascending. -/
theorem write_order_not_sorted_counterexample :
    (collectResult (collectResult initBuildState
        (WorkerResult.avifOk "b.png" "b.avif" [] 0))
        (WorkerResult.avifOk "a.png" "a.avif" [] 0)).encodedResults.map Prod.fst
      = ["b.avif", "a.avif"] ∧
    (addFileTrace (collectResult (collectResult initBuildState
        (WorkerResult.avifOk "b.png" "b.avif" [] 0))
        (WorkerResult.avifOk "a.png" "a.avif" [] 0)) [] []).map Prod.fst
      = ["b.avif", "a.avif", "renpak_manifest.json"] ∧
    strLeB "b.avif" "a.avif" = false := by
  refine ⟨by decide, by decide, by decide⟩

/-- **C8 (amended).** The encoded artifacts are written to the output
archive in collection (completion) order, not sorted: after folding any
sequence of worker results, `encoded_results` is the previous list
extended by each result's pairs in arrival order, and the write phase
passes exactly those names to `writer.add_file` in that order, followed
by the verbatim entries and the manifest. -/
theorem write_phase_collection_order (s : BuildState) (rs : List WorkerResult)
    (others : List (String × List Nat)) (mb : List Nat) :
    (rs.foldl collectResult s).encodedResults =
      s.encodedResults ++ emittedAll rs ∧
    (addFileTrace (rs.foldl collectResult s) others mb).map Prod.fst =
      (s.encodedResults ++ emittedAll rs).map Prod.fst ++
        others.map Prod.fst ++ ["renpak_manifest.json"] := by
  have h : ∀ (rs : List WorkerResult) (s : BuildState),
      (rs.foldl collectResult s).encodedResults =
        s.encodedResults ++ emittedAll rs := by
    intro rs
    induction rs with
    | nil => intro s; simp [emittedAll]
    | cons r rest ih =>
        intro s
        simp only [List.foldl_cons, ih, collectResult_encoded, emittedAll,
          List.append_assoc]
  refine ⟨h rs s, ?_⟩
  simp [addFileTrace, h rs s]

end Renpak
